import Mathlib

/-!
Verification of the motion-detect program (src/main.rs) against its
natural-language specification.

The development shallowly embeds the motion-detection core:
thresholds derived from percentage settings (lines 74, 77, 84),
the thumbnail reducer closure `update_thumbnail` (lines 95-132),
the frame differencer (lines 172-191), the motion state machine
(lines 193-210), the buffer flip (lines 199-201) and the pacing
step (lines 163-169).  Machine floating point (f32 for the image
threshold, f64 for the pixel threshold, since the unsuffixed Rust
literals default to f64) is modelled exactly: a float value is a
rational represented as an integer pair `(num, den)` with positive
denominator, and each float operation first forms the exact
rational result and then applies IEEE-754 round-to-nearest-even at
the appropriate precision.  Machine integers are modelled by
Nat/Int (all intermediate values in the program stay far below the
respective overflow bounds, so no wrap-around is modelled); Rust
panics (slice indexing out of bounds) are modelled by an explicit
error outcome.
-/

set_option maxRecDepth 100000

namespace MotionDetect

/-! ## Exact model of IEEE-754 binary floating point

A pre-rounding value is an exact rational `(num, den) : ℤ × ℕ`
(value `num / den`, `den` positive, never normalized so that no gcd
computation is needed). -/

/-- Round the fraction `a / b` (with `b > 0`) to the nearest natural
number, ties to even — the IEEE-754 default rounding mode used by all
Rust float arithmetic. -/
def rndHalfEvenN (a b : ℕ) : ℕ :=
  let t := a / b
  let r := a % b
  if 2 * r < b then t
  else if b < 2 * r then t + 1
  else if t % 2 = 0 then t else t + 1

/-- Fuel-driven upward scan computing `⌊log2 (n/d)⌋` for `n/d ≥ 1`:
maintains `p = 2 ^ e` and advances while `2 ^ (e+1) ≤ n/d`,
i.e. while `p * 2 * d ≤ n`. -/
def log2UpN (fuel n d p e : ℕ) : ℕ :=
  match fuel with
  | 0 => e
  | f + 1 => if p * 2 * d ≤ n then log2UpN f n d (p * 2) (e + 1) else e

/-- Fuel-driven downward scan computing `-⌊log2 (n/d)⌋` for
`0 < n/d < 1`: advances while `2 ^ (-e) > n/d`, i.e. while
`d > n * p` with `p = 2 ^ e`; on exit `2 ^ (-e) ≤ n/d < 2 ^ (-(e-1))`. -/
def log2DownN (fuel n d p e : ℕ) : ℕ :=
  match fuel with
  | 0 => e
  | f + 1 => if d ≤ n * p then e else log2DownN f n d (p * 2) (e + 1)

/-- Floor of the base-2 logarithm of the positive fraction `n / d`
(fuel 1100 covers the whole finite exponent range of f32 and f64). -/
def floorLog2I (n d : ℕ) : ℤ :=
  if d ≤ n then (log2UpN 1100 n d 1 0 : ℤ) else -(log2DownN 1100 n d 1 0 : ℤ)

/-- Exact value of rounding the rational `x.1 / x.2` to the nearest
IEEE-754 binary float with `prec` fractional mantissa bits and minimum
normal exponent `-eminNeg`, round-to-nearest ties-to-even.  The result
is the rounded value, again as an exact fraction `(m, 2 ^ (prec - e))`.
Subnormal results are handled by clamping the exponent at the minimum;
overflow to infinity is not modelled (no value in this program comes
anywhere near it). -/
def froundFx (prec eminNeg : ℕ) (x : ℤ × ℕ) : ℤ × ℕ :=
  if x.1 = 0 then (0, 1)
  else
    let n := x.1.natAbs
    let d := x.2
    let e : ℤ := max (floorLog2I n d) (-(eminNeg : ℤ))
    let pe : ℤ := (prec : ℤ) - e
    let a := if 0 ≤ pe then n * 2 ^ pe.toNat else n
    let b := if 0 ≤ pe then d else d * 2 ^ (-pe).toNat
    let m := rndHalfEvenN a b
    let rnum : ℕ := if 0 ≤ pe then m else m * 2 ^ (-pe).toNat
    let rden : ℕ := if 0 ≤ pe then 2 ^ pe.toNat else 1
    if 0 < x.1 then ((rnum : ℤ), rden) else (-(rnum : ℤ), rden)

/-- Rounding to `f32` (24-bit significand, minimum normal exponent -126). -/
def f32roundFx (x : ℤ × ℕ) : ℤ × ℕ := froundFx 23 126 x

/-- Rounding to `f64` (53-bit significand, minimum normal exponent -1022). -/
def f64roundFx (x : ℤ × ℕ) : ℤ × ℕ := froundFx 52 1022 x

/-- Rust's float-to-integer `as` cast: truncation toward zero. -/
def truncFx (x : ℤ × ℕ) : ℤ :=
  if 0 ≤ x.1 then ((x.1.toNat / x.2 : ℕ) : ℤ) else -(((-x.1).toNat / x.2 : ℕ) : ℤ)

/-! ## Threshold derivation (main.rs lines 74, 77, 84) -/

/-- Line 74: `((pixel_threshold * (255.0 / 100.0)) as i32).clamp(0, 255)`.
The unsuffixed literals make this an f64 computation: the literal
`255.0 / 100.0` is the f64 rounding of 255/100, the percentage is the
f64 rounding of `pct`, their product is rounded to f64, `as i32`
truncates toward zero, and `clamp` bounds the result to `[0, 255]`. -/
def pixel_threshold (pct : ℚ) : ℤ :=
  let p := f64roundFx (pct.num, pct.den)
  let factor := f64roundFx (255, 100)
  let prod := f64roundFx (p.1 * factor.1, p.2 * factor.2)
  max 0 (min 255 (truncFx prod))

/-- Modelled from the spec's words (§3): the pixel threshold the spec
describes, `round(pct * 2.55)` clamped to `[0, 255]`, with exact
rational arithmetic.  Kept only to compare with `pixel_threshold`, the
definition taken from the source. -/
def pixel_threshold_spec (pct : ℚ) : ℤ :=
  max 0 (min 255 (round (pct * (51 / 20))))

/-- Line 77: `(image_threshold / 100.0f32).clamp(0.0, 1.0)`.
An f32 computation: the percentage (an f32 literal) is divided by 100
with the quotient rounded to f32, then clamped to `[0, 1]`.
The clamp is expressed on exact fractions: a fraction with positive
denominator is `≤ 0` iff its numerator is `≤ 0`, and `≥ 1` iff its
numerator is at least its denominator. -/
def image_threshold_norm (pct : ℚ) : ℤ × ℕ :=
  let p := f32roundFx (pct.num, pct.den)
  let q := f32roundFx (p.1, p.2 * 100)
  if q.1 ≤ 0 then (0, 1) else if (q.2 : ℤ) ≤ q.1 then (1, 1) else q

/-- Line 84: `(thumb_len as f32 * image_threshold) as i32`.
The pixel count is converted to f32, multiplied by the normalized image
threshold with the product rounded to f32, and truncated to an integer. -/
def pixel_count_threshold (thumb_len : ℕ) (pct : ℚ) : ℤ :=
  let t := f32roundFx ((thumb_len : ℤ), 1)
  let n := image_threshold_norm pct
  truncFx (f32roundFx (t.1 * n.1, t.2 * n.2))

/-! ## Pacing (main.rs lines 163-169) -/

/-- Lines 163-169: with durations in nanoseconds, if the processing
time is below the capture interval, the remainder is slept away, but
only when `wait_time.as_millis() > 1` (`Duration::as_millis` truncates
to whole milliseconds).  `some w` means "sleep for w ns", `none` means
no sleep. -/
def sleepDuration (processing interval : ℕ) : Option ℕ :=
  if processing < interval then
    let wait := interval - processing
    if 1 < wait / 1000000 then some wait else none
  else none

/-! ## Thumbnail reducer (main.rs lines 95-132)

The reducer's only failure mode in the source is a Rust panic from an
out-of-bounds slice index (`frame[i]` / `thumb[i]`); the spec instead
prescribes a recoverable `MalformedFrame` error.  To compare the two,
the error type below carries both outcomes: `panicOOB` is what the
source can actually produce, `malformedFrame` is modelled from the
spec (§4.1, §7) and is never constructed by the embedded code. -/

deriving instance DecidableEq for Except

inductive ReduceError where
  /-- Modelled from the spec: the recoverable *MalformedFrame* error the
  spec prescribes for a too-short frame buffer.  The source code has no
  such error and never produces this value. -/
  | malformedFrame
  /-- An index-out-of-bounds panic from Rust slice indexing — the
  source's actual failure mode. -/
  | panicOOB
deriving DecidableEq

/-- Checked read `frame[i]`: Rust slice indexing panics when out of
bounds. -/
def getB (l : List ℕ) (i : ℕ) : Except ReduceError ℕ :=
  match l[i]? with
  | some v => .ok v
  | none => .error .panicOOB

/-- Checked write `thumb[i] = v`: panics when out of bounds. -/
def setB (l : List ℕ) (i v : ℕ) : Except ReduceError (List ℕ) :=
  if i < l.length then .ok (l.set i v) else .error .panicOOB

/-- Lines 105-115: the two inner `for` loops accumulating the RGB sums
of one `d × d` block whose top-left source pixel is `(sx, sy)`, reading
`frame[sub_pixel_index + c]` with
`sub_pixel_index = ((sy+y)*w + (sx+x))*3` for the three channels
(the source's `let sub_pixel_index` is inlined into the three reads). -/
def blockSum (frame : List ℕ) (w sy sx d : ℕ) : Except ReduceError (ℕ × ℕ × ℕ) :=
  (List.range d).foldlM (fun acc y =>
    (List.range d).foldlM (fun acc2 x =>
      getB frame (((sy + y) * w + (sx + x)) * 3) >>= fun r =>
      getB frame (((sy + y) * w + (sx + x)) * 3 + 1) >>= fun g =>
      getB frame (((sy + y) * w + (sx + x)) * 3 + 2) >>= fun b =>
      pure (acc2.1 + r, acc2.2.1 + g, acc2.2.2 + b)) acc) (0, 0, 0)

/-- Lines 101-131: the `update_thumbnail` closure.  The outer `while`
loops step `source_y` and `source_x` by `d = downsample`, which for
`0 < d` visits exactly the block origins `(bx*d, by*d)` for
`by < ⌈h/d⌉`, `bx < ⌈w/d⌉`; each block's channel sums are averaged by
`sample_count = d*d` with `clamp(0, 255)` (on naturals `min 255`) and
written to `thumb[((by*d/d)*tw + bx*d/d)*3 + c]`.  `tw` is the thumbnail
width `thumb_width = w / d` computed at line 80. -/
def update_thumbnail (w h d tw : ℕ) (frame thumb : List ℕ) : Except ReduceError (List ℕ) :=
  (List.range ((h + d - 1) / d)).foldlM (fun th1 yb =>
    (List.range ((w + d - 1) / d)).foldlM (fun th2 xb =>
      blockSum frame w (yb * d) (xb * d) d >>= fun s =>
      setB th2 (((yb * d / d) * tw + xb * d / d) * 3) (min 255 (s.1 / (d * d))) >>= fun th3 =>
      setB th3 (((yb * d / d) * tw + xb * d / d) * 3 + 1) (min 255 (s.2.1 / (d * d))) >>= fun th4 =>
      setB th4 (((yb * d / d) * tw + xb * d / d) * 3 + 2) (min 255 (s.2.2 / (d * d)))) th1) thumb

/-! ## Frame differencer (main.rs lines 172-191) -/

/-- The per-pixel "changed" predicate of lines 180-187, read off via
total (default-0) accesses: pixel `i` of the thumbnails counts as
changed when the absolute difference of any of its three channels is
at least the pixel threshold `T` (logical OR across channels). -/
abbrev PixelChanged (T : ℤ) (prevT curT : List ℕ) (i : ℕ) : Prop :=
  T ≤ |(curT.getD (i * 3) 0 : ℤ) - (prevT.getD (i * 3) 0 : ℤ)| ∨
  T ≤ |(curT.getD (i * 3 + 1) 0 : ℤ) - (prevT.getD (i * 3 + 1) 0 : ℤ)| ∨
  T ≤ |(curT.getD (i * 3 + 2) 0 : ℤ) - (prevT.getD (i * 3 + 2) 0 : ℤ)|

/-- Lines 172-191: the double loop over thumbnail pixels counting
changed pixels.  The slices `&thumbs[..][index..=index+2]` panic when
out of bounds, modelled by `none`; each channel difference is computed
in `i32` and a pixel increments the counter when any channel's absolute
difference is `≥ pixel_threshold`. -/
def changed_pixels (tw th : ℕ) (T : ℤ) (prevT curT : List ℕ) : Option ℕ :=
  (List.range th).foldlM (fun acc y =>
    (List.range tw).foldlM (fun acc2 x =>
      match prevT[(y * tw + x) * 3]?, prevT[(y * tw + x) * 3 + 1]?, prevT[(y * tw + x) * 3 + 2]?,
            curT[(y * tw + x) * 3]?, curT[(y * tw + x) * 3 + 1]?, curT[(y * tw + x) * 3 + 2]? with
      | some pr, some pg, some pb, some cr, some cg, some cb =>
        some (if T ≤ |(cr : ℤ) - (pr : ℤ)| ∨ T ≤ |(cg : ℤ) - (pg : ℤ)| ∨
              T ≤ |(cb : ℤ) - (pb : ℤ)| then acc2 + 1 else acc2)
      | _, _, _, _, _, _ => none) acc) 0

/-! ## Motion state machine (main.rs lines 193-210) -/

/-- The externally observable per-cycle output: the `println!("start")`
and `println!("stop")` events, or no output. -/
inductive Event where
  | start
  | stop
  | noEvent
deriving DecidableEq

/-- Lines 193-210: one step of the motion state machine.  The state is
`latest_movement_time : Option ℕ` (`none` = Idle, `some t` = Active
with last motion at instant `t`, instants in nanoseconds).  When
`changed_pixels > pixel_count_threshold` (strict), "start" is printed
exactly when the state was Idle, and the timestamp is refreshed to
`now`; otherwise, an Active state emits "stop" and returns to Idle only
when `now - t` strictly exceeds the tail length, and is left untouched
while the tail window is open. -/
def motionStep (thr : ℤ) (tail : ℕ) (latest : Option ℕ) (count now : ℕ) :
    Option ℕ × Event :=
  if thr < (count : ℤ) then
    (some now, if latest.isNone then Event.start else Event.noEvent)
  else
    match latest with
    | some t => if tail < now - t then (none, Event.stop) else (some t, Event.noEvent)
    | none => (none, Event.noEvent)

/-! ## Capture loop driver (main.rs lines 85-91, 157-213) -/

/-- The loop-carried state: the two thumbnail slot indices
(`previous_thumb`, `current_thumb`, lines 85-86), the two thumbnail
buffers (`thumbs`, lines 87-91), and the state machine's
`latest_movement_time` (line 137). -/
structure LoopState where
  prev : ℕ
  cur : ℕ
  t0 : List ℕ
  t1 : List ℕ
  latest : Option ℕ
deriving DecidableEq

/-- Access `thumbs[i]`; under the loop invariant the indices are 0 or 1,
and any other value is read as slot 1. -/
def LoopState.slot (s : LoopState) (i : ℕ) : List ℕ :=
  if i = 0 then s.t0 else s.t1

/-- Line 159: `update_thumbnail(&mut thumbs[current_thumb])` — overwrite
the current slot with the freshly reduced thumbnail `nt`. -/
def LoopState.writeCur (s : LoopState) (nt : List ℕ) : LoopState :=
  { s with t0 := if s.cur = 0 then nt else s.t0, t1 := if s.cur = 0 then s.t1 else nt }

/-- Lines 85-91 and 137: initial state — `previous_thumb = 0`,
`current_thumb = 1`, both buffers zero-filled at `tw*th*3` bytes,
`latest_movement_time = None`. -/
def initState (tw th : ℕ) : LoopState :=
  { prev := 0, cur := 1,
    t0 := List.replicate (tw * th * 3) 0, t1 := List.replicate (tw * th * 3) 0,
    latest := none }

/-- Lines 157-213: one iteration of the capture loop (pacing aside).
The freshly reduced thumbnail `nt` (the result of `update_thumbnail`,
line 159) is written into the current slot, `changed_pixels` is counted
between the previous and current slots (lines 172-191), the state
machine runs (lines 193-210), and — inside the motion branch only
(lines 199-201) — the two slot indices are flipped via `1 - index`.
`none` propagates a panic from the differencer's slice indexing. -/
def loopStep (tw th : ℕ) (T thr : ℤ) (tail : ℕ) (s : LoopState) (nt : List ℕ)
    (now : ℕ) : Option (LoopState × Event) :=
  let s1 := s.writeCur nt
  match changed_pixels tw th T (s1.slot s.prev) (s1.slot s.cur) with
  | none => none
  | some count =>
    let r := motionStep thr tail s.latest count now
    if thr < (count : ℤ) then
      some ({ s1 with prev := 1 - s.prev, cur := 1 - s.cur, latest := r.1 }, r.2)
    else
      some ({ s1 with latest := r.1 }, r.2)

/-! ## Generic fold lemmas -/

/-- A monadic fold whose every step is pure computes the pure fold. -/
theorem foldlM_eq_pure {m : Type u → Type v} [Monad m] [LawfulMonad m] {α β : Type u}
    (f : β → α → m β) (g : β → α → β) :
    ∀ (l : List α), (∀ b, ∀ a ∈ l, f b a = pure (g b a)) → ∀ b,
      l.foldlM f b = pure (l.foldl g b)
  | [], _, b => by simp
  | a :: l, h, b => by
    rw [List.foldlM_cons, h b a (List.mem_cons_self a l), pure_bind, List.foldl_cons]
    exact foldlM_eq_pure f g l (fun b' a' ha' => h b' a' (List.mem_cons_of_mem _ ha')) (g b a)

/-- Inversion for a successful `Except` bind. -/
theorem except_bind_ok {ε α β : Type u} (x : Except ε α) (f : α → Except ε β) (r : β)
    (h : x >>= f = .ok r) : ∃ a, x = .ok a ∧ f a = .ok r := by
  cases x with
  | ok a => exact ⟨a, rfl, h⟩
  | error e => simp [Bind.bind, Except.bind] at h

/-- If an `Except` fold succeeds, every list element's step succeeded on
some accumulator. -/
theorem foldlM_ok_mem {ε α β : Type u} (f : β → α → Except ε β) :
    ∀ (l : List α) (b r), l.foldlM f b = .ok r → ∀ a ∈ l, ∃ b1 r1, f b1 a = .ok r1
  | [], _, _, _, a, ha => absurd ha (List.not_mem_nil a)
  | a' :: l, b, r, h, a, ha => by
    rw [List.foldlM_cons] at h
    obtain ⟨b1, hb1, hrest⟩ := except_bind_ok _ _ _ h
    rcases List.mem_cons.mp ha with rfl | ha'
    · exact ⟨b, b1, hb1⟩
    · exact foldlM_ok_mem f l b1 r hrest a ha'

/-- An `Except` bind cannot produce an error value neither side can. -/
theorem except_bind_ne_error {ε α β : Type u} (bad : ε) (x : Except ε α)
    (f : α → Except ε β) (hx : x ≠ .error bad) (hf : ∀ a, f a ≠ .error bad) :
    x >>= f ≠ .error bad := by
  cases x with
  | ok a => simpa [Bind.bind, Except.bind] using hf a
  | error e => simpa [Bind.bind, Except.bind] using hx

/-- An `Except` fold cannot produce an error value no step can. -/
theorem foldlM_ne_error {ε α β : Type u} (bad : ε) (f : β → α → Except ε β)
    (hstep : ∀ b a, f b a ≠ .error bad) :
    ∀ (l : List α) (b), l.foldlM f b ≠ .error bad
  | [], b => by simp [pure, Except.pure]
  | a :: l, b => by
    rw [List.foldlM_cons]
    exact except_bind_ne_error bad _ _ (hstep b a)
      (fun b1 => foldlM_ne_error bad f hstep l b1)

/-- A successful checked read is in bounds. -/
theorem getB_ok_lt {l : List ℕ} {i v : ℕ} (h : getB l i = .ok v) : i < l.length := by
  by_contra hlen
  rw [getB, List.getElem?_eq_none (Nat.le_of_not_lt hlen)] at h
  exact Except.noConfusion h

/-- The checked read never reports a malformed frame. -/
theorem getB_ne_malformed (l : List ℕ) (i : ℕ) : getB l i ≠ .error .malformedFrame := by
  rw [getB]
  cases l[i]? <;> simp

/-- The checked write never reports a malformed frame. -/
theorem setB_ne_malformed (l : List ℕ) (i v : ℕ) : setB l i v ≠ .error .malformedFrame := by
  rw [setB]
  split <;> simp

/-! ## Arithmetic helpers for the block traversal -/

/-- The outer while loops run at least one block row/column when the
dimension and the step are positive. -/
theorem ceilDiv_pos {h d : ℕ} (hh : 0 < h) (hd : 0 < d) : 0 < (h + d - 1) / d :=
  Nat.le_div_iff_mul_le hd |>.mpr (by omega)

/-- The blocks visited by the while loops cover the whole dimension. -/
theorem ceilDiv_mul_ge (h : ℕ) {d : ℕ} (hd : 0 < d) : h ≤ ((h + d - 1) / d) * d := by
  have hdm := Nat.div_add_mod (h + d - 1) d
  have hlt := Nat.mod_lt (h + d - 1) hd
  rw [Nat.mul_comm]
  omega

/-- When the block size divides the dimension, the while loop runs
exactly `h / d` times. -/
theorem ceilDiv_eq_of_dvd {h d : ℕ} (hd : 0 < d) (hdvd : d ∣ h) :
    (h + d - 1) / d = h / d := by
  obtain ⟨k, rfl⟩ := hdvd
  have h1 : d * k + d - 1 = (d - 1) + d * k := by omega
  rw [h1, Nat.add_mul_div_left _ _ hd, Nat.div_eq_of_lt (by omega), Nat.mul_div_cancel_left _ hd]
  omega

/-! ## The reducer on short frames (claim C6) -/

/-- A successful block sum read the block's bottom-right byte, so that
byte is in bounds. -/
theorem blockSum_ok_lt {frame : List ℕ} {w sy sx d : ℕ} {s : ℕ × ℕ × ℕ} (hd : 0 < d)
    (h : blockSum frame w sy sx d = .ok s) :
    ((sy + (d - 1)) * w + (sx + (d - 1))) * 3 + 2 < frame.length := by
  obtain ⟨acc, r1, hx⟩ :=
    foldlM_ok_mem _ _ _ _ h (d - 1) (List.mem_range.mpr (by omega))
  obtain ⟨acc2, r2, hstep⟩ :=
    foldlM_ok_mem _ _ _ _ hx (d - 1) (List.mem_range.mpr (by omega))
  obtain ⟨vr, hvr, hrest⟩ := except_bind_ok _ _ _ hstep
  obtain ⟨vg, hvg, hrest2⟩ := except_bind_ok _ _ _ hrest
  obtain ⟨vb, hvb, _⟩ := except_bind_ok _ _ _ hrest2
  exact getB_ok_lt hvb

/-- The block sum can only fail by a panic. -/
theorem blockSum_ne_malformed (frame : List ℕ) (w sy sx d : ℕ) :
    blockSum frame w sy sx d ≠ .error .malformedFrame := by
  refine foldlM_ne_error _ _ (fun acc y => ?_) _ _
  refine foldlM_ne_error _ _ (fun acc2 x => ?_) _ _
  refine except_bind_ne_error _ _ _ (getB_ne_malformed _ _) (fun r => ?_)
  refine except_bind_ne_error _ _ _ (getB_ne_malformed _ _) (fun g => ?_)
  refine except_bind_ne_error _ _ _ (getB_ne_malformed _ _) (fun b => ?_)
  simp [pure, Except.pure]

/-- The reducer can only fail by a panic: the source has no
`MalformedFrame` error. -/
theorem update_thumbnail_ne_malformed (w h d tw : ℕ) (frame thumb : List ℕ) :
    update_thumbnail w h d tw frame thumb ≠ .error .malformedFrame := by
  refine foldlM_ne_error _ _ (fun th1 yb => ?_) _ _
  refine foldlM_ne_error _ _ (fun th2 xb => ?_) _ _
  refine except_bind_ne_error _ _ _ (blockSum_ne_malformed _ _ _ _ _) (fun s => ?_)
  refine except_bind_ne_error _ _ _ (setB_ne_malformed _ _ _) (fun th3 => ?_)
  refine except_bind_ne_error _ _ _ (setB_ne_malformed _ _ _) (fun th4 => ?_)
  exact setB_ne_malformed _ _ _

/-- Claim C6 (amended): a frame buffer shorter than `w*h*3` bytes makes
the reducer hit an out-of-bounds index, so it fails with the
index-out-of-bounds panic — it never reads out of bounds, and it never
produces the spec's `MalformedFrame` error, which the source does not
have. -/
theorem C6_short_frame_panics {w h d : ℕ} (tw : ℕ) (frame thumb : List ℕ)
    (hw : 0 < w) (hh : 0 < h) (hd : 0 < d) (hlen : frame.length < w * h * 3) :
    update_thumbnail w h d tw frame thumb = .error .panicOOB := by
  cases hres : update_thumbnail w h d tw frame thumb with
  | error e =>
    cases e with
    | malformedFrame => exact absurd hres (update_thumbnail_ne_malformed w h d tw frame thumb)
    | panicOOB => rfl
  | ok r =>
    exfalso
    obtain ⟨th1, r1, hinner⟩ := foldlM_ok_mem _ _ _ _ hres ((h + d - 1) / d - 1)
      (List.mem_range.mpr (by have := ceilDiv_pos hh hd; omega))
    obtain ⟨th2, r2, hstep⟩ := foldlM_ok_mem _ _ _ _ hinner ((w + d - 1) / d - 1)
      (List.mem_range.mpr (by have := ceilDiv_pos hw hd; omega))
    obtain ⟨s, hblock, hwr⟩ := except_bind_ok _ _ _ hstep
    have hidx := blockSum_ok_lt hd hblock
    have hrow : h - 1 ≤ ((h + d - 1) / d - 1) * d + (d - 1) := by
      have e1 := ceilDiv_mul_ge h hd
      have e2 := ceilDiv_pos hh hd
      have e3 : ((h + d - 1) / d - 1) * d + d = ((h + d - 1) / d) * d := by
        calc ((h + d - 1) / d - 1) * d + d = ((h + d - 1) / d - 1 + 1) * d := by ring
          _ = ((h + d - 1) / d) * d := by rw [Nat.sub_add_cancel e2]
      omega
    have hcol : w - 1 ≤ ((w + d - 1) / d - 1) * d + (d - 1) := by
      have e1 := ceilDiv_mul_ge w hd
      have e2 := ceilDiv_pos hw hd
      have e3 : ((w + d - 1) / d - 1) * d + d = ((w + d - 1) / d) * d := by
        calc ((w + d - 1) / d - 1) * d + d = ((w + d - 1) / d - 1 + 1) * d := by ring
          _ = ((w + d - 1) / d) * d := by rw [Nat.sub_add_cancel e2]
      omega
    have hmul : ((h - 1) * w + (w - 1)) * 3 + 2 ≤
        ((((h + d - 1) / d - 1) * d + (d - 1)) * w + (((w + d - 1) / d - 1) * d + (d - 1))) * 3
          + 2 := by
      have hb := Nat.add_le_add (Nat.mul_le_mul_right w hrow) hcol
      omega
    have hlast : w * h * 3 - 1 ≤ ((h - 1) * w + (w - 1)) * 3 + 2 := by
      have hsub := Nat.sub_one_mul h w
      have hc : w * h = h * w := Nat.mul_comm w h
      have hge : w ≤ h * w := Nat.le_mul_of_pos_left w hh
      omega
    omega

/-! ## The reducer on uniform frames (claim C7) -/

/-- Binding a successful `Except` computation just applies the
continuation. -/
theorem except_ok_bind {ε α β : Type u} (a : α) (f : α → Except ε β) :
    (Except.ok a : Except ε α) >>= f = f a := rfl

/-- Reading any in-bounds byte of a uniform frame yields its constant. -/
theorem getB_replicate {n i c : ℕ} (hi : i < n) : getB (List.replicate n c) i = .ok c := by
  rw [getB, List.getElem?_replicate_of_lt hi]

/-- The last byte of pixel `(xx, yy)` of a `w × h` RGB frame is in
bounds. -/
theorem idx3_lt {w h yy xx : ℕ} (hy : yy < h) (hx : xx < w) :
    (yy * w + xx) * 3 + 2 < w * h * 3 := by
  have h1 : yy * w ≤ (h - 1) * w := Nat.mul_le_mul_right w (by omega)
  have h2 := Nat.sub_one_mul h w
  have h3 : w * h = h * w := Nat.mul_comm w h
  have h4 : w ≤ h * w := Nat.le_mul_of_pos_left w (by omega)
  omega

/-- Folding a constant triple increment `n` times adds `n * cc` to each
component. -/
theorem foldl_addc (cc : ℕ) : ∀ (n : ℕ) (acc : ℕ × ℕ × ℕ),
    (List.range n).foldl
      (fun (a : ℕ × ℕ × ℕ) (_ : ℕ) => (a.1 + cc, a.2.1 + cc, a.2.2 + cc)) acc
    = (acc.1 + n * cc, acc.2.1 + n * cc, acc.2.2 + n * cc)
  | 0, acc => by simp
  | n + 1, acc => by
    rw [List.range_succ, List.foldl_append, foldl_addc cc n acc, List.foldl_cons,
      List.foldl_nil]
    have e1 : n * cc + cc = (n + 1) * cc := by ring
    simp [e1, Nat.add_assoc]

/-- A `d × d` block of a uniform `w × h` frame sums to `d * d * c` on
every channel. -/
theorem blockSum_uniform {w h d c : ℕ} (sy sx : ℕ)
    (hsy : sy + d ≤ h) (hsx : sx + d ≤ w) :
    blockSum (List.replicate (w * h * 3) c) w sy sx d
      = .ok (d * d * c, d * d * c, d * d * c) := by
  rw [blockSum]
  rw [foldlM_eq_pure _
    (fun (acc : ℕ × ℕ × ℕ) (_ : ℕ) => (acc.1 + d * c, acc.2.1 + d * c, acc.2.2 + d * c))
    _ ?_ (0, 0, 0)]
  · rw [foldl_addc]
    simp [pure, Except.pure, Nat.mul_assoc]
  · intro b y hy
    rw [foldlM_eq_pure _
      (fun (acc2 : ℕ × ℕ × ℕ) (_ : ℕ) => (acc2.1 + c, acc2.2.1 + c, acc2.2.2 + c))
      _ ?_ b]
    · rw [foldl_addc]
    · intro b2 x hx
      have hyy : sy + y < h := by have := List.mem_range.mp hy; omega
      have hxx : sx + x < w := by have := List.mem_range.mp hx; omega
      have hb2 := idx3_lt hyy hxx
      rw [getB_replicate (show ((sy + y) * w + (sx + x)) * 3 < w * h * 3 by omega),
        except_ok_bind,
        getB_replicate (show ((sy + y) * w + (sx + x)) * 3 + 1 < w * h * 3 by omega),
        except_ok_bind, getB_replicate hb2, except_ok_bind]

/-- Intermediate state of the uniform-frame reduction: the first `k`
thumbnail bytes have been written with `c`, the remaining `total - k`
are still the initial zeros. -/
def frontierThumb (c total k : ℕ) : List ℕ :=
  List.replicate k c ++ List.replicate (total - k) 0

/-- Writing the three channel bytes `v` at the frontier of a partially
written buffer advances the frontier by one pixel. -/
theorem write3_uniform (k m v : ℕ) (hm : 3 ≤ m) :
    (setB (List.replicate k v ++ List.replicate m 0) k v >>= fun t3 =>
     setB t3 (k + 1) v >>= fun t4 => setB t4 (k + 2) v)
    = .ok (List.replicate (k + 3) v ++ List.replicate (m - 3) 0) := by
  obtain ⟨m', rfl⟩ : ∃ m', m = m' + 3 := ⟨m - 3, by omega⟩
  have hrep : List.replicate (m' + 3) (0 : ℕ) = 0 :: 0 :: 0 :: List.replicate m' 0 := by
    simp [List.replicate_succ]
  have hlen : ∀ l2 : List ℕ, (List.replicate k v ++ l2).length = k + l2.length := by
    intro l2; simp
  have hs1 : setB (List.replicate k v ++ (0 :: 0 :: 0 :: List.replicate m' 0)) k v
      = .ok (List.replicate k v ++ (v :: 0 :: 0 :: List.replicate m' 0)) := by
    rw [setB, if_pos (by simp)]
    rw [List.set_append_right _ _ (by simp)]
    simp
  have hs2 : setB (List.replicate k v ++ (v :: 0 :: 0 :: List.replicate m' 0)) (k + 1) v
      = .ok (List.replicate k v ++ (v :: v :: 0 :: List.replicate m' 0)) := by
    rw [setB, if_pos (by simp)]
    rw [List.set_append_right _ _ (by simp)]
    simp
  have hs3 : setB (List.replicate k v ++ (v :: v :: 0 :: List.replicate m' 0)) (k + 2) v
      = .ok (List.replicate k v ++ (v :: v :: v :: List.replicate m' 0)) := by
    rw [setB, if_pos (by simp)]
    rw [List.set_append_right _ _ (by simp)]
    simp
  rw [hrep, hs1, except_ok_bind, hs2, except_ok_bind, hs3]
  have hout : List.replicate k v ++ (v :: v :: v :: List.replicate m' 0)
      = List.replicate (k + 3) v ++ List.replicate (m' + 3 - 3) 0 := by
    rw [Nat.add_sub_cancel, List.replicate_add, List.append_assoc]
    rfl
  rw [hout]

/-- A pixel coordinate pair addresses a pixel below the total count. -/
theorem pix_lt {tw th yb n : ℕ} (hyb : yb < th) (hn : n < tw) : yb * tw + n < th * tw := by
  have h1 : yb * tw ≤ (th - 1) * tw := Nat.mul_le_mul_right tw (by omega)
  have h2 := Nat.sub_one_mul th tw
  have h3 : tw ≤ th * tw := Nat.le_mul_of_pos_left tw (by omega)
  omega

/-- One block row of the uniform reduction: processing the first `n`
blocks of row `yb` advances the written frontier from pixel `yb * tw`
to pixel `yb * tw + n`. -/
theorem row_uniform (d tw th c : ℕ) (hd : 0 < d) (hc : c ≤ 255) (yb : ℕ) (hyb : yb < th) :
    ∀ n, n ≤ tw →
      (List.range n).foldlM (fun th2 xb =>
        blockSum (List.replicate ((d * tw) * (d * th) * 3) c) (d * tw) (yb * d) (xb * d) d
          >>= fun s =>
        setB th2 (((yb * d / d) * tw + xb * d / d) * 3) (min 255 (s.1 / (d * d)))
          >>= fun th3 =>
        setB th3 (((yb * d / d) * tw + xb * d / d) * 3 + 1) (min 255 (s.2.1 / (d * d)))
          >>= fun th4 =>
        setB th4 (((yb * d / d) * tw + xb * d / d) * 3 + 2) (min 255 (s.2.2 / (d * d))))
        (frontierThumb c (tw * th * 3) ((yb * tw) * 3))
      = .ok (frontierThumb c (tw * th * 3) ((yb * tw + n) * 3))
  | 0, _ => by simp only [List.range_zero, List.foldlM_nil, Nat.add_zero]; rfl
  | n + 1, hn => by
    rw [List.range_succ, List.foldlM_append,
      row_uniform d tw th c hd hc yb hyb n (by omega), except_ok_bind, List.foldlM_cons]
    have hblock : blockSum (List.replicate ((d * tw) * (d * th) * 3) c) (d * tw) (yb * d)
        (n * d) d = .ok (d * d * c, d * d * c, d * d * c) := by
      refine blockSum_uniform (yb * d) (n * d) ?_ ?_
      · have e1 : (yb + 1) * d ≤ th * d := Nat.mul_le_mul_right d (by omega)
        have e2 : yb * d + d = (yb + 1) * d := by ring
        have e3 : d * th = th * d := Nat.mul_comm d th
        omega
      · have e1 : (n + 1) * d ≤ tw * d := Nat.mul_le_mul_right d (by omega)
        have e2 : n * d + d = (n + 1) * d := by ring
        have e3 : d * tw = tw * d := Nat.mul_comm d tw
        omega
    rw [hblock]
    simp only [except_ok_bind]
    have hdiv1 : yb * d / d = yb := Nat.mul_div_cancel yb hd
    have hdiv2 : n * d / d = n := Nat.mul_div_cancel n hd
    have hval : min 255 (d * d * c / (d * d)) = c := by
      rw [Nat.mul_div_cancel_left c (Nat.mul_pos hd hd), min_eq_right hc]
    rw [hdiv1, hdiv2, hval]
    have hm : 3 ≤ tw * th * 3 - (yb * tw + n) * 3 := by
      have hp := pix_lt hyb (show n < tw by omega)
      have hcm : tw * th = th * tw := Nat.mul_comm tw th
      omega
    rw [frontierThumb]
    have hw3 := write3_uniform ((yb * tw + n) * 3) (tw * th * 3 - (yb * tw + n) * 3) c hm
    simp only [List.foldlM_nil]
    simp only [bind_pure]
    rw [hw3]
    have e1 : (yb * tw + n) * 3 + 3 = (yb * tw + (n + 1)) * 3 := by ring
    have e2 : tw * th * 3 - (yb * tw + n) * 3 - 3 = tw * th * 3 - (yb * tw + (n + 1)) * 3 := by
      omega
    rw [e1, e2, frontierThumb]

/-- The whole uniform reduction: processing the first `n` block rows
writes the first `n * tw` pixels. -/
theorem col_uniform (d tw th c : ℕ) (hd : 0 < d) (hc : c ≤ 255) :
    ∀ n, n ≤ th →
      (List.range n).foldlM (fun th1 yb =>
        (List.range tw).foldlM (fun th2 xb =>
          blockSum (List.replicate ((d * tw) * (d * th) * 3) c) (d * tw) (yb * d) (xb * d) d
            >>= fun s =>
          setB th2 (((yb * d / d) * tw + xb * d / d) * 3) (min 255 (s.1 / (d * d)))
            >>= fun th3 =>
          setB th3 (((yb * d / d) * tw + xb * d / d) * 3 + 1) (min 255 (s.2.1 / (d * d)))
            >>= fun th4 =>
          setB th4 (((yb * d / d) * tw + xb * d / d) * 3 + 2) (min 255 (s.2.2 / (d * d)))) th1)
        (frontierThumb c (tw * th * 3) 0)
      = .ok (frontierThumb c (tw * th * 3) ((n * tw) * 3))
  | 0, _ => by simp only [List.range_zero, List.foldlM_nil, Nat.zero_mul, Nat.mul_zero]; rfl
  | n + 1, hn => by
    rw [List.range_succ, List.foldlM_append,
      col_uniform d tw th c hd hc n (by omega), except_ok_bind, List.foldlM_cons]
    have hrow := row_uniform d tw th c hd hc n (by omega) tw (le_refl tw)
    rw [hrow]
    simp only [List.foldlM_nil]
    simp only [bind_pure]
    have e1 : n * tw + tw = (n + 1) * tw := by ring
    rw [e1]

/-- Claim C7: the thumbnail reducer is a pure function (a Lean `def` of
the frame, downsample factor and target dimensions), and a uniform
`w × h` frame of constant byte `c` reduces, for any positive downsample
factor dividing both dimensions, to the uniform `(w/d) × (h/d)`
thumbnail of constant `c`: each thumbnail pixel is the per-channel
block average `(c, c, c)`. -/
theorem C7_uniform_reduction {w h d : ℕ} (c : ℕ) (hd : 0 < d) (hdw : d ∣ w)
    (hdh : d ∣ h) (hc : c ≤ 255) :
    update_thumbnail w h d (w / d) (List.replicate (w * h * 3) c)
      (List.replicate ((w / d) * (h / d) * 3) 0)
    = .ok (List.replicate ((w / d) * (h / d) * 3) c) := by
  obtain ⟨tw, rfl⟩ := hdw
  obtain ⟨th, rfl⟩ := hdh
  have htw : d * tw / d = tw := Nat.mul_div_cancel_left tw hd
  have hth : d * th / d = th := Nat.mul_div_cancel_left th hd
  have hR : (d * th + d - 1) / d = th := by
    rw [ceilDiv_eq_of_dvd hd ⟨th, rfl⟩, Nat.mul_div_cancel_left th hd]
  have hC : (d * tw + d - 1) / d = tw := by
    rw [ceilDiv_eq_of_dvd hd ⟨tw, rfl⟩, Nat.mul_div_cancel_left tw hd]
  rw [update_thumbnail, htw, hth, hR, hC]
  have hinit : List.replicate (tw * th * 3) (0 : ℕ) = frontierThumb c (tw * th * 3) 0 := by
    simp [frontierThumb]
  rw [hinit, col_uniform d tw th c hd hc th (le_refl th)]
  have hfin : frontierThumb c (tw * th * 3) ((th * tw) * 3) = List.replicate (tw * th * 3) c := by
    have hcm : th * tw = tw * th := Nat.mul_comm th tw
    rw [frontierThumb, hcm, Nat.sub_self]
    simp
  rw [hfin]

/-! ## The differencer counts exactly the changed pixels (claims C2, C3) -/

/-- An in-bounds optional access yields the default-0 read. -/
theorem getElem?_eq_some_getD {l : List ℕ} {i : ℕ} (h : i < l.length) :
    l[i]? = some (l.getD i 0) := by
  rw [List.getD_eq_getElem?_getD]
  cases hx : l[i]? with
  | none => exact absurd (List.getElem?_eq_none_iff.mp hx) (Nat.not_le_of_lt h)
  | some v => rfl

/-- Counting via a conditional fold equals the filtered cardinality. -/
theorem foldl_count (P : ℕ → Prop) [DecidablePred P] :
    ∀ (n a : ℕ), (List.range n).foldl (fun acc x => if P x then acc + 1 else acc) a
      = a + ((Finset.range n).filter P).card
  | 0, a => by simp
  | n + 1, a => by
    rw [List.range_succ, List.foldl_append, foldl_count P n a, List.foldl_cons, List.foldl_nil,
      Finset.range_succ, Finset.filter_insert]
    by_cases hP : P n
    · rw [if_pos hP, if_pos hP,
        Finset.card_insert_of_not_mem (fun hmem => by
          have := Finset.mem_of_mem_filter n hmem
          exact absurd (Finset.mem_range.mp this) (Nat.lt_irrefl n))]
      omega
    · rw [if_neg hP, if_neg hP]

/-- Summing via a fold equals the finite sum. -/
theorem foldl_sum (f : ℕ → ℕ) :
    ∀ (n a : ℕ), (List.range n).foldl (fun acc y => acc + f y) a
      = a + ∑ y in Finset.range n, f y
  | 0, a => by simp
  | n + 1, a => by
    rw [List.range_succ, List.foldl_append, foldl_sum f n a, List.foldl_cons, List.foldl_nil,
      Finset.sum_range_succ]
    omega

/-- Cardinality of a filtered product, row by row. -/
theorem card_filter_product (th tw : ℕ) (P : ℕ × ℕ → Prop) [DecidablePred P] :
    ((Finset.range th ×ˢ Finset.range tw).filter P).card
      = ∑ y in Finset.range th, ((Finset.range tw).filter (fun x => P (y, x))).card := by
  rw [Finset.card_filter, Finset.sum_product]
  exact Finset.sum_congr rfl (fun y _ => (Finset.card_filter _ _).symm)

/-- Characterization of the frame differencer: on buffers long enough
for every read (in particular on two `tw*th`-pixel thumbnails), it
returns exactly the number of pixel positions whose OR-of-channels
difference reaches the threshold. -/
theorem changed_pixels_eq (tw th : ℕ) (T : ℤ) (prevT curT : List ℕ)
    (hp : tw * th * 3 ≤ prevT.length) (hc : tw * th * 3 ≤ curT.length) :
    changed_pixels tw th T prevT curT
      = some (((Finset.range th ×ˢ Finset.range tw).filter
          (fun q => PixelChanged T prevT curT (q.1 * tw + q.2))).card) := by
  rw [changed_pixels]
  rw [foldlM_eq_pure _
    (fun acc y => acc +
      ((Finset.range tw).filter (fun x => PixelChanged T prevT curT (y * tw + x))).card)
    _ ?_ 0]
  · rw [foldl_sum, card_filter_product]
    simp
  · intro acc y hy
    have hy' : y < th := List.mem_range.mp hy
    rw [foldlM_eq_pure _
      (fun acc2 x => if PixelChanged T prevT curT (y * tw + x) then acc2 + 1 else acc2)
      _ ?_ acc]
    · rw [foldl_count]
    · intro acc2 x hx
      have hx' : x < tw := List.mem_range.mp hx
      have hpx : y * tw + x < th * tw := pix_lt hy' hx'
      have hcm : th * tw = tw * th := Nat.mul_comm th tw
      have hb2 : (y * tw + x) * 3 + 2 < tw * th * 3 := by omega
      rw [getElem?_eq_some_getD (show (y * tw + x) * 3 < prevT.length by omega),
        getElem?_eq_some_getD (show (y * tw + x) * 3 + 1 < prevT.length by omega),
        getElem?_eq_some_getD (show (y * tw + x) * 3 + 2 < prevT.length by omega),
        getElem?_eq_some_getD (show (y * tw + x) * 3 < curT.length by omega),
        getElem?_eq_some_getD (show (y * tw + x) * 3 + 1 < curT.length by omega),
        getElem?_eq_some_getD (show (y * tw + x) * 3 + 2 < curT.length by omega)]
      rfl

/-- Pixel coordinates are recoverable from the flattened pixel index. -/
theorem pix_inj {tw y0 x0 y1 x1 : ℕ} (hx1 : x1 < tw) (hx0 : x0 < tw)
    (h : y1 * tw + x1 = y0 * tw + x0) : y1 = y0 ∧ x1 = x0 := by
  rcases Nat.lt_trichotomy y1 y0 with hlt | heq | hgt
  · exfalso
    have e1 : (y1 + 1) * tw = y1 * tw + tw := by ring
    have e2 : (y1 + 1) * tw ≤ y0 * tw := Nat.mul_le_mul_right tw (by omega)
    omega
  · constructor
    · exact heq
    · subst heq; omega
  · exfalso
    have e1 : (y0 + 1) * tw = y0 * tw + tw := by ring
    have e2 : (y0 + 1) * tw ≤ y1 * tw := Nat.mul_le_mul_right tw (by omega)
    omega

/-- Unfolding of one loop iteration once the changed-pixel count is
known: the state machine runs on the count, and the slot indices flip
exactly in the motion branch. -/
theorem loopStep_eq_some (tw th : ℕ) (T thr : ℤ) (tail : ℕ) (s : LoopState) (nt : List ℕ)
    (now count : ℕ)
    (hcount : changed_pixels tw th T ((s.writeCur nt).slot s.prev) ((s.writeCur nt).slot s.cur)
      = some count) :
    loopStep tw th T thr tail s nt now =
      some (if thr < (count : ℤ) then
              ({ s.writeCur nt with
                 prev := 1 - s.prev
                 cur := 1 - s.cur
                 latest := (motionStep thr tail s.latest count now).1 },
               (motionStep thr tail s.latest count now).2)
            else
              ({ s.writeCur nt with latest := (motionStep thr tail s.latest count now).1 },
               (motionStep thr tail s.latest count now).2)) := by
  simp only [loopStep, hcount]
  split <;> rfl

/-! ## Claim theorems -/

/-- Claim C1, counterexample: the spec says the derived pixel threshold
is `round(pct * 2.55)`, i.e. 26 for 10.0; the code truncates the f64
product, giving 25 for 10.0 (and 254, not 255, for 100.0, because the
f64 value of `255.0 / 100.0` is slightly below 51/20). -/
theorem C1_counterexample :
    pixel_threshold 10 = 25 ∧ pixel_threshold_spec 10 = 26 ∧
    pixel_threshold 10 ≠ pixel_threshold_spec 10 ∧ pixel_threshold 100 = 254 := by
  have h1 : pixel_threshold 10 = 25 := by decide
  have h2 : pixel_threshold_spec 10 = 26 := by norm_num [pixel_threshold_spec, round_eq]
  exact ⟨h1, h2, by rw [h1, h2]; decide, by decide⟩

/-- Claim C1 (amended): the derived integer pixel threshold is the f64
product `pct * (255.0 / 100.0)` truncated toward zero and clamped to
`[0, 255]`; in particular it is 25 for 10.0, 0 for 0.0 and 254 for
100.0, and the clamp keeps it within `[0, 255]` for every percentage. -/
theorem C1_pixel_threshold :
    (∀ pct : ℚ, 0 ≤ pixel_threshold pct ∧ pixel_threshold pct ≤ 255) ∧
    pixel_threshold 10 = 25 ∧ pixel_threshold 0 = 0 ∧ pixel_threshold 100 = 254 := by
  refine ⟨fun pct => ⟨le_max_left 0 _, ?_⟩, by decide, by decide, by decide⟩
  simp only [pixel_threshold]
  exact max_le (by norm_num) (min_le_left _ _)

/-- Claim C8: the pixel-count threshold is the image percentage
normalized into `[0, 1]` (the clamped f32 quotient by 100), multiplied
by the thumbnail pixel count in f32 and truncated; for 20.0 and the
4800-pixel (80 × 60) thumbnail of the 640 × 480 / 8 configuration it is
960, and the normalization always lies within `[0, 1]`. -/
theorem C8_pixel_count_threshold :
    pixel_count_threshold ((640 / 8) * (480 / 8)) 20 = 960 ∧
    (∀ pct : ℚ, 0 ≤ (image_threshold_norm pct).1 ∧
      (image_threshold_norm pct).1 ≤ ((image_threshold_norm pct).2 : ℤ)) := by
  refine ⟨by decide, fun pct => ?_⟩
  simp only [image_threshold_norm]
  split
  · exact ⟨le_refl 0, by norm_num⟩
  · split
    · exact ⟨by norm_num, by norm_num⟩
    · refine ⟨?_, ?_⟩ <;> omega

/-- Claim C9, counterexample: with 200 ms target interval and 198.5 ms
processing time the remainder 1.5 ms strictly exceeds the spec's 1 ms
scheduling-noise floor, yet the code does not sleep, because
`wait_time.as_millis() > 1` demands at least 2 whole milliseconds. -/
theorem C9_counterexample :
    sleepDuration 198500000 200000000 = none ∧
    1000000 < 200000000 - 198500000 := by decide

/-- Claim C9 (amended): the pacing step sleeps for exactly the target
interval minus the elapsed processing time when processing time is
below the interval and the remainder is at least 2 ms (its whole
millisecond count exceeds 1); when the remainder is below 2 ms, or
processing time reaches the interval, no sleep occurs. -/
theorem C9_pacing : ∀ processing interval : ℕ,
    (processing < interval → 2000000 ≤ interval - processing →
      sleepDuration processing interval = some (interval - processing)) ∧
    (processing < interval → interval - processing < 2000000 →
      sleepDuration processing interval = none) ∧
    (interval ≤ processing → sleepDuration processing interval = none) := by
  intro p i
  refine ⟨fun h1 h2 => ?_, fun h1 h2 => ?_, fun h1 => ?_⟩
  · have h3 : 2 ≤ (i - p) / 1000000 := (Nat.le_div_iff_mul_le (by norm_num)).mpr (by omega)
    simp only [sleepDuration]
    rw [if_pos h1, if_pos (by omega)]
  · have h3 : (i - p) / 1000000 < 2 := (Nat.div_lt_iff_lt_mul (by norm_num)).mpr (by omega)
    simp only [sleepDuration]
    rw [if_pos h1, if_neg (by omega)]
  · simp only [sleepDuration]
    rw [if_neg (by omega)]

/-- Claim C9, witness instances of the amended pacing rule. -/
theorem C9_witness :
    sleepDuration 0 2000000 = some 2000000 ∧
    sleepDuration 199000000 200000000 = none ∧
    sleepDuration 200000000 200000000 = none :=
  ⟨(C9_pacing 0 2000000).1 (by decide) (by decide),
   (C9_pacing 199000000 200000000).2.1 (by decide) (by decide),
   (C9_pacing 200000000 200000000).2.2 (by decide)⟩

/-- Claim C6, counterexample: on a frame one byte short of 8·8·3, the
reducer fails with the index-out-of-bounds panic, not with the spec's
`MalformedFrame` error value. -/
theorem C6_counterexample :
    update_thumbnail 8 8 8 1 (List.replicate 191 0) (List.replicate 3 0)
      ≠ .error .malformedFrame ∧
    update_thumbnail 8 8 8 1 (List.replicate 191 0) (List.replicate 3 0)
      = .error .panicOOB := by decide

/-- Claim C6, witness: a concrete short frame panics. -/
theorem C6_witness :
    update_thumbnail 2 2 2 1 (List.replicate 11 0) (List.replicate 3 0)
      = .error .panicOOB :=
  C6_short_frame_panics 1 (List.replicate 11 0) (List.replicate 3 0)
    (by decide) (by decide) (by decide) (by decide)

/-- Claim C7, witness: a concrete uniform frame reduces to the uniform
thumbnail. -/
theorem C7_witness :
    update_thumbnail 4 4 2 (4 / 2) (List.replicate (4 * 4 * 3) 7)
      (List.replicate ((4 / 2) * (4 / 2) * 3) 0)
    = .ok (List.replicate ((4 / 2) * (4 / 2) * 3) 7) :=
  C7_uniform_reduction 7 (by decide) (by decide) (by decide) (by decide)

/-- Claim C3, counterexample: a single pixel whose blue channel differs
by exactly the pixel threshold 5 is counted as changed (count 1), not
ignored as the claim's "equal-to-threshold is no motion" would demand
at the pixel level (count 0). -/
theorem C3_counterexample :
    changed_pixels 1 1 5 [0, 0, 0] [0, 0, 5] = some 1 ∧
    changed_pixels 1 1 5 [0, 0, 0] [0, 0, 5] ≠ some 0 := by decide

/-- Claim C3 (amended): the tie-breaks differ between the two levels.
At pixel level the comparison is inclusive — a channel difference
exactly equal to the pixel threshold does count the pixel as changed;
at image level the comparison is strict — a changed-pixel count exactly
equal to the pixel-count threshold is classified as no motion (an Idle
machine stays Idle with no event, and an Active machine does not
refresh its timestamp inside the tail window). -/
theorem C3_threshold_ties :
    (∀ (T : ℤ) (prevT curT : List ℕ) (i : ℕ),
      |(curT.getD (i * 3 + 2) 0 : ℤ) - (prevT.getD (i * 3 + 2) 0 : ℤ)| = T →
      PixelChanged T prevT curT i) ∧
    (∀ (thr : ℤ) (tail count now : ℕ), (count : ℤ) = thr →
      motionStep thr tail none count now = (none, Event.noEvent)) ∧
    (∀ (thr : ℤ) (tail t count now : ℕ), (count : ℤ) = thr → now - t ≤ tail →
      motionStep thr tail (some t) count now = (some t, Event.noEvent)) := by
  refine ⟨fun T p c i h => Or.inr (Or.inr (h ▸ le_refl _)),
    fun thr tail count now h => ?_, fun thr tail t count now h h2 => ?_⟩
  · simp only [motionStep]
    rw [if_neg (by omega)]
  · simp only [motionStep]
    rw [if_neg (by omega), if_neg (by omega)]

/-- Claim C3, witness instances of both amended tie-break rules. -/
theorem C3_witness :
    PixelChanged 5 [0, 0, 0] [0, 0, 5] 0 ∧
    motionStep 500 2 none 500 7 = (none, Event.noEvent) :=
  ⟨C3_threshold_ties.1 5 [0, 0, 0] [0, 0, 5] 0 (by decide),
   C3_threshold_ties.2.1 500 2 500 7 (by decide)⟩

/-- Claim C4: per step of the motion state machine, a start event is
emitted exactly at the Idle-to-Active transition (count strictly above
the threshold while Idle) and never while already Active; the
timestamp is recorded on every motion-classified step; a stop event is
emitted exactly when Active, the count is at or below the threshold,
and the time since the last motion strictly exceeds the tail, upon
which the state returns to Idle; and while the tail window is open
there is no event and the timestamp is left untouched. -/
theorem C4_state_machine : ∀ (thr : ℤ) (tail : ℕ) (latest : Option ℕ) (count now : ℕ),
    ((motionStep thr tail latest count now).2 = Event.start ↔
      latest = none ∧ thr < (count : ℤ)) ∧
    (thr < (count : ℤ) → (motionStep thr tail latest count now).1 = some now) ∧
    ((motionStep thr tail latest count now).2 = Event.stop ↔
      ∃ t, latest = some t ∧ (count : ℤ) ≤ thr ∧ tail < now - t) ∧
    ((motionStep thr tail latest count now).2 = Event.stop →
      (motionStep thr tail latest count now).1 = none) ∧
    (∀ t, latest = some t → (count : ℤ) ≤ thr → now - t ≤ tail →
      (motionStep thr tail latest count now).2 = Event.noEvent ∧
      (motionStep thr tail latest count now).1 = some t) := by
  intro thr tail latest count now
  cases latest with
  | none =>
    by_cases hcount : thr < (count : ℤ)
    · simp [motionStep, hcount]
    · simp [motionStep, hcount]
  | some t0 =>
    by_cases hcount : thr < (count : ℤ)
    · simp [motionStep, hcount]
    · by_cases htail : tail < now - t0
      · simp [motionStep, hcount, htail]
        omega
      · simp [motionStep, hcount, htail]

/-- Claim C4, witness: a concrete start at the Idle-to-Active
transition and a concrete stop after the tail has expired. -/
theorem C4_witness :
    (motionStep 500 2 none 1000 7).2 = Event.start ∧
    (motionStep 500 2 (some 3) 100 7).2 = Event.stop :=
  ⟨((C4_state_machine 500 2 none 1000 7).1).mpr ⟨rfl, by decide⟩,
   ((C4_state_machine 500 2 (some 3) 100 7).2.2.1).mpr ⟨3, rfl, by decide, by decide⟩⟩

/-- Claim C2: the differencer counts exactly the pixels for which some
channel's absolute difference reaches the threshold (logical OR across
the three channels); consequently two thumbnails that agree everywhere
except for one pixel's blue channel, which differs by exactly the
positive threshold `T`, yield count 1 at threshold `T` and count 0 at
threshold `T + 1`. -/
theorem C2_differencer :
    (∀ (tw th : ℕ) (T : ℤ) (prevT curT : List ℕ),
      tw * th * 3 ≤ prevT.length → tw * th * 3 ≤ curT.length →
      changed_pixels tw th T prevT curT
        = some (((Finset.range th ×ˢ Finset.range tw).filter
            (fun q => PixelChanged T prevT curT (q.1 * tw + q.2))).card)) ∧
    (∀ (tw th : ℕ) (T : ℤ) (prevT curT : List ℕ) (y0 x0 : ℕ),
      tw * th * 3 ≤ prevT.length → tw * th * 3 ≤ curT.length →
      y0 < th → x0 < tw → 0 < T →
      (∀ i, i < tw * th * 3 → i ≠ (y0 * tw + x0) * 3 + 2 →
        curT.getD i 0 = prevT.getD i 0) →
      |(curT.getD ((y0 * tw + x0) * 3 + 2) 0 : ℤ)
        - (prevT.getD ((y0 * tw + x0) * 3 + 2) 0 : ℤ)| = T →
      changed_pixels tw th T prevT curT = some 1 ∧
      changed_pixels tw th (T + 1) prevT curT = some 0) := by
  refine ⟨changed_pixels_eq, ?_⟩
  intro tw th T prevT curT y0 x0 hp hc hy0 hx0 hT heq hblue
  have hbyte : ∀ y x k, y < th → x < tw → k ≤ 2 →
      (y, x) ≠ (y0, x0) ∨ k ≠ 2 →
      curT.getD ((y * tw + x) * 3 + k) 0 = prevT.getD ((y * tw + x) * 3 + k) 0 := by
    intro y x k hy hx hk hor
    have hlt : y * tw + x < tw * th := by
      have h1 := pix_lt hy hx
      have h2 : th * tw = tw * th := Nat.mul_comm th tw
      omega
    refine heq _ (by omega) ?_
    intro hcontra
    have hpix : y * tw + x = y0 * tw + x0 := by omega
    have hkk : k = 2 := by omega
    obtain ⟨hy1, hx1⟩ := pix_inj hx hx0 hpix
    rcases hor with hne | hne
    · exact hne (by rw [hy1, hx1])
    · exact hne hkk
  have hzero : ∀ (y x k : ℕ), y < th → x < tw → k ≤ 2 → (y, x) ≠ (y0, x0) ∨ k ≠ 2 →
      (curT.getD ((y * tw + x) * 3 + k) 0 : ℤ)
        - (prevT.getD ((y * tw + x) * 3 + k) 0 : ℤ) = 0 := by
    intro y x k hy hx hk hor
    rw [hbyte y x k hy hx hk hor]
    exact sub_self _
  have hchanged : PixelChanged T prevT curT (y0 * tw + x0) := by
    refine Or.inr (Or.inr ?_)
    rw [hblue]
  have hside : ∀ (T2 : ℤ) (y x : ℕ), 0 < T2 → y < th → x < tw → (y, x) ≠ (y0, x0) →
      ¬ PixelChanged T2 prevT curT (y * tw + x) := by
    intro T2 y x hT2 hy hx hne hch
    have e0 := hzero y x 0 hy hx (by omega) (Or.inl hne)
    have e1 := hzero y x 1 hy hx (by omega) (Or.inl hne)
    have e2 := hzero y x 2 hy hx (by omega) (Or.inl hne)
    rcases hch with h | h | h
    · rw [Nat.add_zero] at e0
      rw [e0] at h
      simp at h
      omega
    · rw [e1] at h
      simp at h
      omega
    · rw [e2] at h
      simp at h
      omega
  constructor
  · rw [changed_pixels_eq tw th T prevT curT hp hc]
    have hf1 : (Finset.range th ×ˢ Finset.range tw).filter
        (fun q => PixelChanged T prevT curT (q.1 * tw + q.2)) = {(y0, x0)} := by
      apply Finset.eq_singleton_iff_unique_mem.mpr
      constructor
      · exact Finset.mem_filter.mpr
          ⟨Finset.mem_product.mpr ⟨Finset.mem_range.mpr hy0, Finset.mem_range.mpr hx0⟩,
           hchanged⟩
      · rintro ⟨y, x⟩ hq
        obtain ⟨hqp, hqpred⟩ := Finset.mem_filter.mp hq
        obtain ⟨hqy, hqx⟩ := Finset.mem_product.mp hqp
        by_contra hne
        exact hside T y x hT (Finset.mem_range.mp hqy) (Finset.mem_range.mp hqx) hne hqpred
    rw [hf1, Finset.card_singleton]
  · rw [changed_pixels_eq tw th (T + 1) prevT curT hp hc]
    have hf0 : (Finset.range th ×ˢ Finset.range tw).filter
        (fun q => PixelChanged (T + 1) prevT curT (q.1 * tw + q.2)) = ∅ := by
      apply Finset.filter_eq_empty_iff.mpr
      rintro ⟨y, x⟩ hqp
      obtain ⟨hqy, hqx⟩ := Finset.mem_product.mp hqp
      by_cases hne : (y, x) = (y0, x0)
      · have hy1 : y = y0 := congrArg Prod.fst hne
        have hx1 : x = x0 := congrArg Prod.snd hne
        subst hy1
        subst hx1
        intro hch
        have e0 := hzero y x 0 (Finset.mem_range.mp hqy) (Finset.mem_range.mp hqx)
          (by omega) (Or.inr (by omega))
        have e1 := hzero y x 1 (Finset.mem_range.mp hqy) (Finset.mem_range.mp hqx)
          (by omega) (Or.inr (by omega))
        rcases hch with h | h | h
        · rw [Nat.add_zero] at e0
          rw [e0] at h
          simp at h
          omega
        · rw [e1] at h
          simp at h
          omega
        · rw [hblue] at h
          omega
      · exact hside (T + 1) y x (by omega) (Finset.mem_range.mp hqy)
          (Finset.mem_range.mp hqx) hne
    rw [hf0, Finset.card_empty]

/-- Claim C2, witness: two 2-pixel thumbnails that differ only in one
pixel's blue channel by exactly 5 give count 1 at threshold 5 and
count 0 at threshold 6. -/
theorem C2_witness :
    changed_pixels 2 1 5 (List.replicate 6 0) [0, 0, 5, 0, 0, 0] = some 1 ∧
    changed_pixels 2 1 6 (List.replicate 6 0) [0, 0, 5, 0, 0, 0] = some 0 :=
  C2_differencer.2 2 1 5 (List.replicate 6 0) [0, 0, 5, 0, 0, 0] 0 0
    (by decide) (by decide) (by decide) (by decide) (by decide) (by decide) (by decide)

/-- Claim C5: given a loop state with the two slot indices summing to 1
and a changed-pixel count for the cycle, the iteration flips the
previous/current roles exactly when the count strictly exceeds the
pixel-count threshold — the just-written thumbnail `nt` becomes the new
baseline — and on a no-motion cycle both indices and the baseline
buffer are left untouched, so quiescent comparisons keep the same
baseline. -/
theorem C5_baseline_swap (tw th : ℕ) (T thr : ℤ) (tail : ℕ) (s : LoopState) (nt : List ℕ)
    (now count : ℕ) (s2 : LoopState) (ev : Event)
    (hinv : s.prev + s.cur = 1)
    (hcount : changed_pixels tw th T ((s.writeCur nt).slot s.prev) ((s.writeCur nt).slot s.cur)
      = some count)
    (hstep : loopStep tw th T thr tail s nt now = some (s2, ev)) :
    (thr < (count : ℤ) → s2.prev = 1 - s.prev ∧ s2.cur = 1 - s.cur ∧ s2.slot s2.prev = nt) ∧
    ((count : ℤ) ≤ thr → s2.prev = s.prev ∧ s2.cur = s.cur ∧
      s2.slot s2.prev = s.slot s.prev) := by
  rw [loopStep_eq_some tw th T thr tail s nt now count hcount] at hstep
  have hcases : (s.prev = 0 ∧ s.cur = 1) ∨ (s.prev = 1 ∧ s.cur = 0) := by omega
  by_cases hth : thr < (count : ℤ)
  · rw [if_pos hth] at hstep
    have hpair := Option.some.inj hstep
    have hs2 : s2 = { s.writeCur nt with
        prev := 1 - s.prev
        cur := 1 - s.cur
        latest := (motionStep thr tail s.latest count now).1 } := ((Prod.ext_iff.mp hpair).1).symm
    refine ⟨fun _ => ?_, fun hle => absurd hth (by omega)⟩
    subst hs2
    refine ⟨rfl, rfl, ?_⟩
    rcases hcases with ⟨hp, hc⟩ | ⟨hp, hc⟩ <;>
      simp [LoopState.slot, LoopState.writeCur, hp, hc]
  · rw [if_neg hth] at hstep
    have hpair := Option.some.inj hstep
    have hs2 : s2 = { s.writeCur nt with
        latest := (motionStep thr tail s.latest count now).1 } := ((Prod.ext_iff.mp hpair).1).symm
    refine ⟨fun hgt => absurd hgt hth, fun _ => ?_⟩
    subst hs2
    refine ⟨rfl, rfl, ?_⟩
    rcases hcases with ⟨hp, hc⟩ | ⟨hp, hc⟩ <;>
      simp [LoopState.slot, LoopState.writeCur, hp, hc]

/-- Claim C5, witness: in a concrete motion cycle the fresh thumbnail
ends up in the baseline slot selected by the flipped index. -/
theorem C5_witness :
    (⟨1, 0, [0, 0, 0], [0, 0, 0], some 0⟩ : LoopState).slot 1 = [0, 0, 0] := by
  have h := C5_baseline_swap 1 1 0 0 0 (initState 1 1) [0, 0, 0] 0 1
    (⟨1, 0, [0, 0, 0], [0, 0, 0], some 0⟩ : LoopState) Event.start
    (by decide) (by decide) (by decide)
  exact (h.1 (by decide)).2.2

/-- Claim C10: the two thumbnail slot indices are distinct elements of
`{0, 1}` (their sum is 1): this holds for the initial state
(`previous_thumb = 0`, `current_thumb = 1`) and is preserved by every
loop iteration, including the motion-triggered flip that replaces each
index by `1 - index`. -/
theorem C10_slot_invariant :
    (∀ tw th : ℕ, (initState tw th).prev + (initState tw th).cur = 1) ∧
    (∀ (tw th : ℕ) (T thr : ℤ) (tail : ℕ) (s : LoopState) (nt : List ℕ) (now : ℕ)
      (s2 : LoopState) (ev : Event), s.prev + s.cur = 1 →
      loopStep tw th T thr tail s nt now = some (s2, ev) → s2.prev + s2.cur = 1) := by
  constructor
  · intro tw th
    rfl
  · intro tw th T thr tail s nt now s2 ev hinv hstep
    cases hcp : changed_pixels tw th T ((s.writeCur nt).slot s.prev)
        ((s.writeCur nt).slot s.cur) with
    | none =>
      rw [loopStep, hcp] at hstep
      exact Option.noConfusion hstep
    | some count =>
      rw [loopStep_eq_some tw th T thr tail s nt now count hcp] at hstep
      by_cases hth : thr < (count : ℤ)
      · rw [if_pos hth] at hstep
        have hs2 : s2 = { s.writeCur nt with
            prev := 1 - s.prev
            cur := 1 - s.cur
            latest := (motionStep thr tail s.latest count now).1 } :=
          ((Prod.ext_iff.mp (Option.some.inj hstep)).1).symm
        subst hs2
        show 1 - s.prev + (1 - s.cur) = 1
        omega
      · rw [if_neg hth] at hstep
        have hs2 : s2 = { s.writeCur nt with
            latest := (motionStep thr tail s.latest count now).1 } :=
          ((Prod.ext_iff.mp (Option.some.inj hstep)).1).symm
        subst hs2
        show s.prev + s.cur = 1
        exact hinv

/-- Claim C10, witness: the invariant is preserved across a concrete
motion iteration that flips the indices. -/
theorem C10_witness :
    (⟨1, 0, [0, 0, 0], [0, 0, 0], some 0⟩ : LoopState).prev
      + (⟨1, 0, [0, 0, 0], [0, 0, 0], some 0⟩ : LoopState).cur = 1 :=
  C10_slot_invariant.2 1 1 0 0 0 (initState 1 1) [0, 0, 0] 0
    (⟨1, 0, [0, 0, 0], [0, 0, 0], some 0⟩ : LoopState) Event.start (by decide) (by decide)

end MotionDetect
